import Mathlib

/-!
Shallow embedding of the three fixture generators of this repository:

* `scripts/generate_large_file.py` : exact-size random text file generator,
* `generate_large_csv.py`          : random employee CSV generator,
* `generate_large_json.py`         : synthetic HTTP-request JSON generator.

Randomness is modelled by oracles: every call of the form
`random.choices(pool, k)` / `random.choice(pool)` / `random.randint(a, b)`
receives a fresh stream of natural numbers and picks elements of the pool
by reducing the stream value modulo the pool size (respectively modulo the
width of the closed interval).  This keeps every library guarantee of the
Python functions (the result is always a member of the pool, respectively
lies inside the closed interval) while leaving the actual draw arbitrary.

Text is modelled as `List Char`; the byte length of a written string is the
sum of the UTF-8 sizes of its characters, exactly as in the source, which
accumulates `len(chunk.encode(utf8))`.
-/

/-- Alphabet `string.ascii_letters` of the Python standard library. -/
def ascii_letters : List Char :=
  "abcdefghijklmnopqrstuvwxyzABCDEFGHIJKLMNOPQRSTUVWXYZ".toList

/-- Alphabet `string.digits` of the Python standard library. -/
def string_digits : List Char := "0123456789".toList

/-- Pool used for the reusable full chunk: `string.ascii_letters + string.digits + ' \n'`. -/
def chunk_pool : List Char := ascii_letters ++ string_digits ++ [' ', '\n']

/-- Pool used for the final partial chunk: `string.ascii_letters + string.digits + ' '`. -/
def last_pool : List Char := ascii_letters ++ string_digits ++ [' ']

/-- Oracle model of `random.choices(pool, k=k)`: `k` draws, the `i`-th draw picks
the pool element whose index is the oracle value at `i` reduced modulo the pool
size.  The default `a` is never used when the pool is nonempty. -/
def choices (pool : List Char) (k : Nat) (r : Nat → Nat) : List Char :=
  (List.range k).map fun i => pool.getD (r i % pool.length) 'a'

/-- Byte length of a character list under UTF-8, i.e. `len(s.encode(utf8))`. -/
def utf8Len (l : List Char) : Nat := (l.map fun c => c.utf8Size).sum

/-- `chunk_size = 1024` of `generate_large_file`. -/
def chunk_size : Nat := 1024

/-- The `while bytes_written < size_in_bytes` loop of `generate_large_file`.
Returns the list of strings passed to `f.write`, in order.  `remaining_bytes`
is a Python int and can be negative there; it is only compared against `0` and
used as a count when positive, so the truncating `Nat` subtraction used here
has exactly the same behaviour.  The hypothesis `hne` records that the source
only runs the loop with the nonempty 1024-character chunk, which is what makes
the loop terminate. -/
def writeLoop (size_in_bytes : Nat) (chunk : List Char) (hne : chunk ≠ [])
    (lr : Nat → Nat) (bytes_written : Nat) : List (List Char) :=
  if _hlt : bytes_written < size_in_bytes then
    if bytes_written + utf8Len chunk + chunk_size > size_in_bytes then
      if size_in_bytes - (bytes_written + utf8Len chunk) > 0 then
        [chunk, choices last_pool (size_in_bytes - (bytes_written + utf8Len chunk)) lr]
      else
        [chunk]
    else
      chunk :: writeLoop size_in_bytes chunk hne lr (bytes_written + utf8Len chunk)
  else
    []
termination_by size_in_bytes - bytes_written
decreasing_by
  cases chunk with
  | nil => exact absurd rfl hne
  | cons c cs =>
    have hp : 0 < utf8Len (c :: cs) := by
      have := Char.utf8Size_pos c
      simp only [utf8Len, List.map_cons, List.sum_cons]
      omega
    omega

/-- Body of `generate_large_file` run on an already computed byte target:
generate the reusable random chunk, then run the write loop from
`bytes_written = 0`.  `cr` drives the chunk generation, `lr` the final
partial chunk. -/
def generate_large_file_bytes (size_in_bytes : Nat) (cr lr : Nat → Nat) :
    List (List Char) :=
  writeLoop size_in_bytes (choices chunk_pool chunk_size cr)
    (by
      apply List.ne_nil_of_length_pos
      simp [choices, chunk_size])
    lr 0

/-- `generate_large_file(file_path, size_in_mb)`: the byte target is
`size_in_mb * 1024 * 1024`; the result is the sequence of written strings,
whose concatenation is the file content. -/
def generate_large_file (size_in_mb : Nat) (cr lr : Nat → Nat) :
    List (List Char) :=
  generate_large_file_bytes (size_in_mb * 1024 * 1024) cr lr

/-- Total number of bytes of a list of written strings, i.e. the resulting
file size on disk. -/
def totalBytes (chunks : List (List Char)) : Nat := (chunks.map utf8Len).sum

/-- Fuel-indexed small-step version of the write loop, used to state
termination: `none` means the fuel ran out before the loop exited. -/
def writeLoopFuel (fuel : Nat) (size_in_bytes : Nat) (chunk : List Char)
    (lr : Nat → Nat) (bytes_written : Nat) : Option (List (List Char)) :=
  match fuel with
  | 0 => none
  | f + 1 =>
    if bytes_written < size_in_bytes then
      if bytes_written + utf8Len chunk + chunk_size > size_in_bytes then
        if size_in_bytes - (bytes_written + utf8Len chunk) > 0 then
          some [chunk, choices last_pool (size_in_bytes - (bytes_written + utf8Len chunk)) lr]
        else
          some [chunk]
      else
        match writeLoopFuel f size_in_bytes chunk lr (bytes_written + utf8Len chunk) with
        | none => none
        | some rest => some (chunk :: rest)
    else
      some []

/-- A concrete oracle, used for evaluating the generators at fixed inputs. -/
def zeroOracle : Nat → Nat := fun _ => 0

/-! ## CSV generator (`generate_large_csv.py`) -/

/-- Pool `string.ascii_letters + string.digits` used by `random_string`. -/
def alnum_pool : List Char := ascii_letters ++ string_digits

/-- `random_string(length)`: a random string over letters and digits. -/
def random_string (length : Nat) (r : Nat → Nat) : List Char :=
  choices alnum_pool length r

/-- Worker of Python `str.title()`.  The boolean argument records whether the
previous character was cased; a cased (here: alphabetic, since the reachable
strings are ASCII alphanumeric) character is lower-cased after a cased one and
upper-cased otherwise, and every other character passes through unchanged while
resetting the word boundary. -/
def pyTitleGo : Bool → List Char → List Char
  | _, [] => []
  | prevCased, c :: cs =>
    (if c.isAlpha then (if prevCased then c.toLower else c.toUpper) else c) ::
      pyTitleGo c.isAlpha cs

/-- Python `str.title()` on a character list. -/
def pyTitle (l : List Char) : List Char := pyTitleGo false l

/-- Modelled from the words of the spec, not from the source: title casing
read as upper-casing the first character and lower-casing all remaining
characters.  Used to compare the spec sentence about `name` against the
behaviour of Python `str.title()`. -/
def spec_title : List Char → List Char
  | [] => []
  | c :: cs => c.toUpper :: cs.map Char.toLower

/-- Checker for the case discipline of Python title casing: every alphabetic
character is upper case at a word start (string start or after a
non-alphabetic character) and lower case otherwise.  The boolean argument
records whether the previous character was alphabetic. -/
def titleCaseOk : Bool → List Char → Bool
  | _, [] => true
  | prev, c :: cs =>
    ((!c.isAlpha) || (if prev then c.isLower else c.isUpper)) && titleCaseOk c.isAlpha cs

/-- Oracle model of `random.randint(lo, hi)`: a value in the closed interval
`[lo, hi]`, picked by the oracle value `u` reduced modulo the interval width. -/
def randint (lo hi : Nat) (u : Nat) : Nat := lo + u % (hi + 1 - lo)

/-- Oracle model of `random.choice(pool)` for a nonempty pool. -/
def choiceL {α : Type} (pool : List α) (d : α) (u : Nat) : α :=
  pool.getD (u % pool.length) d

/-- Accumulator worker for the decimal representation of a natural number.
The first argument is fuel bounding the number of divisions by ten; it is
structural so that the definition evaluates by kernel reduction. -/
def decimalStrCore : Nat → Nat → List Char → List Char
  | 0, _, acc => acc
  | fuel + 1, n, acc =>
    if n < 10 then Nat.digitChar n :: acc
    else decimalStrCore fuel (n / 10) (Nat.digitChar (n % 10) :: acc)

/-- Decimal representation of a natural number, modelling Python `str(n)` for
the nonnegative integers produced by the generators.  `n + 1` units of fuel
always suffice, since the value shrinks at every division. -/
def decimalStr (n : Nat) : List Char := decimalStrCore (n + 1) n []

/-- The four email domains of `random_email`. -/
def domains : List (List Char) :=
  ["gmail.com".toList, "yahoo.com".toList, "outlook.com".toList, "company.com".toList]

/-- `random_email()`: a random 8-character user name, an `@`, and a domain
chosen from the fixed 4-element pool. -/
def random_email (r : Nat → Nat) (u : Nat) : List Char :=
  random_string 8 r ++ '@' :: choiceL domains [] u

/-- `random_phone()`: the string `+1-` followed by three random digit groups
drawn from `[100, 999]`, `[100, 999]` and `[1000, 9999]`, joined by dashes. -/
def random_phone (u1 u2 u3 : Nat) : List Char :=
  "+1-".toList ++ decimalStr (randint 100 999 u1) ++
    '-' :: decimalStr (randint 100 999 u2) ++
    '-' :: decimalStr (randint 1000 9999 u3)

/-- The fixed 12-element city pool of `main`. -/
def cities : List (List Char) :=
  ["New York".toList, "Los Angeles".toList, "Chicago".toList, "Houston".toList,
   "Phoenix".toList, "Philadelphia".toList, "San Antonio".toList, "San Diego".toList,
   "Dallas".toList, "San Jose".toList, "Austin".toList, "Jacksonville".toList]

/-- The fixed 8-element country pool of `main`. -/
def countries : List (List Char) :=
  ["USA".toList, "Canada".toList, "UK".toList, "Germany".toList,
   "France".toList, "Japan".toList, "Australia".toList, "Brazil".toList]

/-- The fixed 8-element department pool of `main`. -/
def departments : List (List Char) :=
  ["Engineering".toList, "Marketing".toList, "Sales".toList, "HR".toList,
   "Finance".toList, "Operations".toList, "Legal".toList, "IT".toList]

/-- The two possible values of the `active` field. -/
def activeStrings : List (List Char) := ["true".toList, "false".toList]

/-- Randomness consumed by one row of the CSV generator: one oracle stream per
`random.*` call site, in source order. -/
structure RowRand where
  name1 : Nat → Nat
  name2 : Nat → Nat
  emailUser : Nat → Nat
  emailDomain : Nat
  phone1 : Nat
  phone2 : Nat
  phone3 : Nat
  ageU : Nat
  cityU : Nat
  countryU : Nat
  deptU : Nat
  salaryU : Nat
  activeU : Nat

/-- One CSV record, mirroring the `row` dictionary of `main`. -/
structure Row where
  id : Nat
  name : List Char
  email : List Char
  phone : List Char
  age : Nat
  city : List Char
  country : List Char
  department : List Char
  salary : Nat
  active : List Char

/-- The `row` dictionary built for index `i` inside the loop of `main`. -/
def makeRow (i : Nat) (q : RowRand) : Row :=
  ⟨i,
   pyTitle (random_string 6 q.name1) ++ ' ' :: pyTitle (random_string 8 q.name2),
   random_email q.emailUser q.emailDomain,
   random_phone q.phone1 q.phone2 q.phone3,
   randint 22 65 q.ageU,
   choiceL cities [] q.cityU,
   choiceL countries [] q.countryU,
   choiceL departments [] q.deptU,
   randint 30000 150000 q.salaryU,
   choiceL activeStrings [] q.activeU⟩

/-- The ten field values of a row in the declared `fieldnames` order, with
integers rendered by `str` — what `DictWriter.writerow` receives. -/
def serializeRow (row : Row) : List (List Char) :=
  [decimalStr row.id, row.name, row.email, row.phone, decimalStr row.age,
   row.city, row.country, row.department, decimalStr row.salary, row.active]

/-- The `fieldnames` list passed to `DictWriter`. -/
def fieldnames : List (List Char) :=
  ["id".toList, "name".toList, "email".toList, "phone".toList, "age".toList,
   "city".toList, "country".toList, "department".toList, "salary".toList,
   "active".toList]

/-- A character that forces quoting under the `excel` dialect with
`QUOTE_MINIMAL`: the delimiter, the quote character, or a line-terminator
character. -/
def badCsvChar (c : Char) : Bool :=
  c == ',' || c == '"' || c == '\r' || c == '\n'

/-- Whether the csv writer must quote this field. -/
def needsQuote (f : List Char) : Bool := f.any badCsvChar

/-- Quote doubling applied inside a quoted field by the csv writer. -/
def escapeQuotes (f : List Char) : List Char :=
  f.flatMap fun c => if c = '"' then ['"', '"'] else [c]

/-- Minimal quoting of one field, as performed by the csv writer. -/
def encodeField (f : List Char) : List Char :=
  if needsQuote f then '"' :: (escapeQuotes f ++ ['"']) else f

/-- Join of the encoded fields of one record with the `,` delimiter. -/
def joinComma : List (List Char) → List Char
  | [] => []
  | [f] => f
  | f :: g :: fs => f ++ ',' :: joinComma (g :: fs)

/-- One physical CSV line (without its terminator). -/
def csvLine (fields : List (List Char)) : List Char :=
  joinComma (fields.map encodeField)

/-- The rows written by the `for i in range(1, 10001)` loop, generalized over
the row count: row `j` of the loop carries id `j + 1`. -/
def csvRows (N : Nat) (q : Nat → RowRand) : List Row :=
  (List.range N).map fun j => makeRow (j + 1) (q j)

/-- All lines of the CSV file: the header line, then one line per record. -/
def csvFileLines (N : Nat) (q : Nat → RowRand) : List (List Char) :=
  csvLine fieldnames :: (csvRows N q).map fun row => csvLine (serializeRow row)

/-- The character content of the CSV file: every line is terminated by the
`excel` dialect line terminator `\r\n`. -/
def csvFile (N : Nat) (q : Nat → RowRand) : List Char :=
  ((csvFileLines N q).map fun l => l ++ ['\r', '\n']).flatten

/-- The content of `large.csv` as produced by `main`: 10,000 records. -/
def large_csv (q : Nat → RowRand) : List Char := csvFile 10000 q

/-- Split a character list at every occurrence of `sep`; a list with `n`
occurrences of `sep` yields `n + 1` parts. -/
def splitOnChar (sep : Char) : List Char → List (List Char)
  | [] => [[]]
  | c :: cs =>
    if c = sep then [] :: splitOnChar sep cs
    else
      match splitOnChar sep cs with
      | [] => [[]]
      | f :: rest => (c :: f) :: rest

/-- The text lines of a file: split at every newline and, when the file ends
with a newline (as every generated file here does), drop the empty part after
the final terminator, as a line-oriented reader does. -/
def fileLines (l : List Char) : List (List Char) :=
  let parts := splitOnChar '\n' l
  if parts.getLast? = some [] then parts.dropLast else parts

/-- Drop the carriage return left at the end of a line when a `\r\n`-terminated
file is split at newlines. -/
def stripCR (l : List Char) : List Char :=
  if l.getLast? = some '\r' then l.dropLast else l

/-- CSV parse of one physical line.  The generated lines never contain the
quote character (proved below), so CSV unescaping is exactly: strip the
carriage return and split at the delimiter. -/
def parseCSVLine (l : List Char) : List (List Char) :=
  splitOnChar ',' (stripCR l)

/-- Concrete per-row randomness that makes the first `random_string(6)` draw
produce a letter, a digit and then another letter. -/
def badNameRand : RowRand :=
  ⟨fun j => if j = 1 then 53 else if j = 2 then 1 else 0,
   zeroOracle, zeroOracle, 0, 0, 0, 0, 0, 0, 0, 0, 0, 0⟩

/-! ## JSON generator (`generate_large_json.py`) -/

/-- One element of the `data` list: an HTTP-request-like record; the Python
`headers` dictionary has the single key `X` and is modelled as a key-value
pair list. -/
structure JsonReq where
  method : String
  requestURI : String
  headers : List (String × String)
  content : String
deriving DecidableEq

/-- Decimal representation as a `String`, modelling Python `str(i)`. -/
def decimalS (n : Nat) : String := ⟨decimalStr n⟩

/-- The `data` list comprehension of `generate_large_json.py`. -/
def jsonData : List JsonReq :=
  (List.range 1000).map fun i =>
    ⟨"GET", "/bulk/" ++ decimalS i, [("X", decimalS i)], decimalS i⟩

/-! ## Helper lemmas: the text-file generator -/

theorem utf8Len_pos (l : List Char) (h : l ≠ []) : 0 < utf8Len l := by
  cases l with
  | nil => exact absurd rfl h
  | cons c cs =>
    have := Char.utf8Size_pos c
    simp only [utf8Len, List.map_cons, List.sum_cons]
    omega

theorem getD_mem_or {α : Type} (l : List α) (n : Nat) (d : α) :
    l.getD n d ∈ l ∨ l.getD n d = d := by
  induction l generalizing n with
  | nil => right; cases n <;> rfl
  | cons a t ih =>
    cases n with
    | zero => left; simp
    | succ m =>
      rw [List.getD_cons_succ]
      rcases ih m with h | h
      · left; exact List.mem_cons_of_mem a h
      · right; exact h

theorem choices_mem (P : List Char) (k : Nat) (r : Nat → Nat) (c : Char)
    (hc : c ∈ choices P k r) : c ∈ P ∨ c = 'a' := by
  unfold choices at hc
  obtain ⟨i, _, rfl⟩ := List.mem_map.mp hc
  exact getD_mem_or P (r i % P.length) 'a'

theorem length_choices (P : List Char) (k : Nat) (r : Nat → Nat) :
    (choices P k r).length = k := by
  simp [choices]

theorem utf8Len_choices (P : List Char) (hP : ∀ c ∈ P, c.utf8Size = 1)
    (k : Nat) (r : Nat → Nat) : utf8Len (choices P k r) = k := by
  unfold utf8Len
  have h : ((choices P k r).map fun c => c.utf8Size) = List.replicate k 1 := by
    refine List.eq_replicate_iff.mpr ⟨?_, ?_⟩
    · rw [List.length_map, length_choices]
    · intro b hb
      obtain ⟨c, hc, rfl⟩ := List.mem_map.mp hb
      rcases choices_mem P k r c hc with h | h
      · exact hP c h
      · rw [h]; rfl
  rw [h, List.sum_replicate, smul_eq_mul, Nat.mul_one]

theorem chunk_pool_utf8 : ∀ c ∈ chunk_pool, c.utf8Size = 1 := by decide

theorem last_pool_utf8 : ∀ c ∈ last_pool, c.utf8Size = 1 := by decide

theorem utf8Len_full_chunk (cr : Nat → Nat) :
    utf8Len (choices chunk_pool chunk_size cr) = 1024 :=
  utf8Len_choices chunk_pool chunk_pool_utf8 chunk_size cr

theorem full_chunk_ne_nil (cr : Nat → Nat) :
    choices chunk_pool chunk_size cr ≠ [] := by
  apply List.ne_nil_of_length_pos
  simp [choices, chunk_size]

theorem writeLoop_replicate (size : Nat) (chunk : List Char) (hne : chunk ≠ [])
    (lr : Nat → Nat) (hlen : utf8Len chunk = 1024) :
    ∀ bw, bw ≤ size → (size - bw) % 1024 = 0 →
      writeLoop size chunk hne lr bw = List.replicate ((size - bw) / 1024) chunk := by
  have hcs : chunk_size = 1024 := rfl
  have main : ∀ d bw, size - bw = d → bw ≤ size → d % 1024 = 0 →
      writeLoop size chunk hne lr bw = List.replicate (d / 1024) chunk := by
    intro d
    induction d using Nat.strong_induction_on with
    | _ d ih =>
      intro bw hd hle hmod
      rw [writeLoop]
      split
      · rename_i hlt
        rw [hlen]
        have hd_pos : 0 < d := by omega
        have hd_ge : 1024 ≤ d := by omega
        split
        · rename_i hover
          have hdeq : d = 1024 := by omega
          have hzero : ¬ (size - (bw + 1024) > 0) := by omega
          rw [if_neg hzero, hdeq]
          rfl
        · rename_i hnoover
          have hrec := ih (d - 1024) (by omega) (bw + 1024) (by omega) (by omega) (by omega)
          rw [hrec]
          have hdiv : d / 1024 = (d - 1024) / 1024 + 1 := by omega
          rw [hdiv, List.replicate_succ]
      · rename_i hge
        have : d = 0 := by omega
        rw [this]
        rfl
  intro bw hle hmod
  exact main (size - bw) bw rfl hle hmod

theorem generate_bytes_replicate (size : Nat) (cr lr : Nat → Nat)
    (hmod : size % 1024 = 0) :
    generate_large_file_bytes size cr lr =
      List.replicate (size / 1024) (choices chunk_pool chunk_size cr) := by
  unfold generate_large_file_bytes
  have h := writeLoop_replicate size (choices chunk_pool chunk_size cr)
    (full_chunk_ne_nil cr) lr (utf8Len_full_chunk cr) 0 (Nat.zero_le _)
    (by simpa using hmod)
  simpa using h

theorem totalBytes_replicate_chunk (n : Nat) (cr : Nat → Nat) :
    totalBytes (List.replicate n (choices chunk_pool chunk_size cr)) = n * 1024 := by
  unfold totalBytes
  rw [List.map_replicate, utf8Len_full_chunk, List.sum_replicate, smul_eq_mul]

theorem totalBytes_generate_bytes (size : Nat) (cr lr : Nat → Nat)
    (hmod : size % 1024 = 0) :
    totalBytes (generate_large_file_bytes size cr lr) = size := by
  rw [generate_bytes_replicate size cr lr hmod, totalBytes_replicate_chunk]
  omega

theorem writeLoopFuel_eq (chunk : List Char) (hne : chunk ≠ []) (lr : Nat → Nat) :
    ∀ fuel size bw, size - bw < fuel →
      writeLoopFuel fuel size chunk lr bw = some (writeLoop size chunk hne lr bw) := by
  intro fuel
  induction fuel with
  | zero => intro size bw h; omega
  | succ f ih =>
    intro size bw h
    rw [writeLoopFuel, writeLoop]
    split
    · rename_i hlt
      split
      · rename_i hover
        split
        · rfl
        · rfl
      · rename_i hnoover
        have hpos := utf8Len_pos chunk hne
        rw [ih size (bw + utf8Len chunk) (by omega)]
    · rfl

theorem last_pool_no_newline : ∀ c ∈ last_pool, c ≠ '\n' := by decide

theorem no_newline_in_choices_last (k : Nat) (lr : Nat → Nat) :
    List.Forall (fun c => c ≠ '\n') (choices last_pool k lr) := by
  rw [List.forall_iff_forall_mem]
  intro c hc
  rcases choices_mem last_pool k lr c hc with h | h
  · exact last_pool_no_newline c h
  · rw [h]; decide

theorem writeLoop_chunks (size : Nat) (chunk : List Char) (hne : chunk ≠ [])
    (lr : Nat → Nat) :
    ∀ bw, List.Forall
      (fun ch => ch = chunk ∨ List.Forall (fun c => c ≠ '\n') ch)
      (writeLoop size chunk hne lr bw) := by
  have main : ∀ d bw, size - bw = d →
      List.Forall (fun ch => ch = chunk ∨ List.Forall (fun c => c ≠ '\n') ch)
        (writeLoop size chunk hne lr bw) := by
    intro d
    induction d using Nat.strong_induction_on with
    | _ d ih =>
      intro bw hd
      rw [writeLoop]
      split
      · rename_i hlt
        split
        · rename_i hover
          split
          · rw [List.forall_cons, List.forall_cons]
            exact ⟨Or.inl rfl, Or.inr (no_newline_in_choices_last _ lr), trivial⟩
          · rw [List.forall_cons]
            exact ⟨Or.inl rfl, trivial⟩
        · rename_i hnoover
          have hpos := utf8Len_pos chunk hne
          rw [List.forall_cons]
          exact ⟨Or.inl rfl, ih (size - (bw + utf8Len chunk)) (by omega) _ rfl⟩
      · trivial
  intro bw
  exact main (size - bw) bw rfl


/-! ## Claim theorems: the text-file generator -/

/-- C1: for every nonnegative integer `size_in_mb` the generated file has
exactly `size_in_mb * 1024 * 1024` bytes (for 0 MB it is exactly empty), and
for the tested 1 MB + 1 KB byte target (1,049,600 bytes) the write loop also
produces exactly that many bytes.  The cases 0 MB, 1 MB and 50 MB are
instances of the first conjunct. -/
theorem generated_file_size_exact :
    (∀ (size_in_mb : Nat) (cr lr : Nat → Nat),
        totalBytes (generate_large_file size_in_mb cr lr) = size_in_mb * 1024 * 1024) ∧
    (∀ cr lr : Nat → Nat,
        totalBytes (generate_large_file_bytes 1049600 cr lr) = 1049600) := by
  constructor
  · intro m cr lr
    unfold generate_large_file
    exact totalBytes_generate_bytes _ cr lr (by omega)
  · intro cr lr
    exact totalBytes_generate_bytes _ cr lr (by norm_num)

/-- C2 counterexample: a 2 MB request performs exactly 2048 writes and no
zero-length trailing chunk ever appears among the written strings — the
`remaining_bytes > 0` guard skips the final write entirely instead of
performing a zero-length one. -/
theorem no_trailing_empty_chunk_at_2mb :
    (generate_large_file 2 zeroOracle zeroOracle).length = 2048 ∧
    [] ∉ generate_large_file 2 zeroOracle zeroOracle := by
  have h : generate_large_file 2 zeroOracle zeroOracle =
      List.replicate 2048 (choices chunk_pool chunk_size zeroOracle) := by
    unfold generate_large_file
    rw [generate_bytes_replicate _ _ _ (by norm_num)]
  rw [h]
  refine ⟨by rw [List.length_replicate], fun hmem => ?_⟩
  exact full_chunk_ne_nil zeroOracle (List.eq_of_mem_replicate hmem).symm

/-- C2 amended: when the byte target is an exact multiple of the chunk size —
which holds for every integer megabyte request — the final loop iteration
computes a remaining-byte count of exactly 0 and performs no trailing write
at all (the `remaining_bytes > 0` guard skips it): the written output is
exactly `size_in_mb * 1024` copies of the full chunk, so a 2 MB request
performs exactly 2048 full-chunk writes totalling 2,097,152 bytes with no
trailing chunk. -/
theorem multiple_of_chunk_no_trailing_write (m : Nat) (cr lr : Nat → Nat) :
    generate_large_file m cr lr =
      List.replicate (m * 1024) (choices chunk_pool chunk_size cr) ∧
    (generate_large_file m cr lr).length = m * 1024 ∧
    totalBytes (generate_large_file m cr lr) = m * 1024 * 1024 := by
  have h : generate_large_file m cr lr =
      List.replicate (m * 1024) (choices chunk_pool chunk_size cr) := by
    unfold generate_large_file
    rw [generate_bytes_replicate _ _ _ (by omega)]
    congr 1
    omega
  refine ⟨h, ?_, ?_⟩
  · rw [h, List.length_replicate]
  · rw [h, totalBytes_replicate_chunk]

/-- C7: the write loop of `generate_large_file` terminates for every
nonnegative integer `size_in_mb`: running the loop as a fuel-indexed step
function with `size_in_mb * 1024 * 1024 + 1` steps of fuel never exhausts the
fuel and produces exactly the writes of the loop (for a zero target the loop
guard fails immediately and the result is the empty write list). -/
theorem write_loop_terminates (m : Nat) (cr lr : Nat → Nat) :
    writeLoopFuel (m * 1024 * 1024 + 1) (m * 1024 * 1024)
      (choices chunk_pool chunk_size cr) lr 0 =
      some (generate_large_file m cr lr) := by
  unfold generate_large_file generate_large_file_bytes
  exact writeLoopFuel_eq _ (full_chunk_ne_nil cr) lr _ _ 0 (by omega)

/-- C9: no prefix of the writes of `generate_large_file` ever exceeds the
byte target: for every nonnegative integer `size_in_mb` and every cut point
`i`, the bytes written by the first `i` writes are at most
`size_in_mb * 1024 * 1024`. -/
theorem bytes_written_never_exceeds_target (m : Nat) (cr lr : Nat → Nat)
    (i : Nat) :
    totalBytes ((generate_large_file m cr lr).take i) ≤ m * 1024 * 1024 := by
  have hle : totalBytes ((generate_large_file m cr lr).take i) ≤
      totalBytes (generate_large_file m cr lr) := by
    conv_rhs => rw [← List.take_append_drop i (generate_large_file m cr lr)]
    unfold totalBytes
    rw [List.map_append, List.sum_append]
    exact Nat.le_add_right _ _
  have heq : totalBytes (generate_large_file m cr lr) = m * 1024 * 1024 := by
    unfold generate_large_file
    exact totalBytes_generate_bytes _ cr lr (by omega)
  omega

/-- C10: the reusable full chunk is drawn from letters, digits, space and
newline, the final partial chunk from letters, digits and space only; hence
every written string is either the reusable full chunk or contains no newline
character at all — for any byte target, including the ones where the final
partial write actually happens. -/
theorem last_chunk_no_newline (target : Nat) (cr lr : Nat → Nat) :
    '\n' ∈ chunk_pool ∧ '\n' ∉ last_pool ∧
    List.Forall
      (fun ch => ch = choices chunk_pool chunk_size cr ∨
        List.Forall (fun c => c ≠ '\n') ch)
      (generate_large_file_bytes target cr lr) := by
  refine ⟨by decide, by decide, ?_⟩
  unfold generate_large_file_bytes
  exact writeLoop_chunks target (choices chunk_pool chunk_size cr)
    (full_chunk_ne_nil cr) lr 0

/-! ## Helper lemmas: the CSV generator -/

theorem choiceL_mem_or {α : Type} (pool : List α) (d : α) (u : Nat) :
    choiceL pool d u ∈ pool ∨ choiceL pool d u = d :=
  getD_mem_or pool (u % pool.length) d

theorem digitChar_mem (d : Nat) (h : d < 10) : Nat.digitChar d ∈ string_digits := by
  interval_cases d <;> decide

theorem decimalStrCore_mem (fuel : Nat) :
    ∀ n acc c, c ∈ decimalStrCore fuel n acc → c ∈ string_digits ∨ c ∈ acc := by
  induction fuel with
  | zero => intro n acc c hc; exact Or.inr hc
  | succ f ih =>
    intro n acc c hc
    rw [decimalStrCore] at hc
    split at hc
    · rename_i h
      rcases List.mem_cons.mp hc with h1 | h1
      · exact Or.inl (h1 ▸ digitChar_mem n h)
      · exact Or.inr h1
    · rcases ih (n / 10) _ c hc with h1 | h1
      · exact Or.inl h1
      · rcases List.mem_cons.mp h1 with h2 | h2
        · exact Or.inl (h2 ▸ digitChar_mem (n % 10) (Nat.mod_lt _ (by omega)))
        · exact Or.inr h2

theorem decimalStr_mem (n : Nat) (c : Char) (hc : c ∈ decimalStr n) :
    c ∈ string_digits := by
  rcases decimalStrCore_mem (n + 1) n [] c hc with h | h
  · exact h
  · simp at h

theorem string_digits_clean : ∀ c ∈ string_digits, badCsvChar c = false := by decide

theorem alnum_pool_clean :
    ∀ c ∈ alnum_pool,
      badCsvChar c = false ∧ badCsvChar c.toUpper = false ∧
        badCsvChar c.toLower = false := by decide

theorem cities_clean : ∀ f ∈ cities, ∀ c ∈ f, badCsvChar c = false := by decide

theorem countries_clean : ∀ f ∈ countries, ∀ c ∈ f, badCsvChar c = false := by decide

theorem departments_clean :
    ∀ f ∈ departments, ∀ c ∈ f, badCsvChar c = false := by decide

theorem domains_clean : ∀ f ∈ domains, ∀ c ∈ f, badCsvChar c = false := by decide

theorem activeStrings_clean :
    ∀ f ∈ activeStrings, ∀ c ∈ f, badCsvChar c = false := by decide

theorem fieldnames_clean :
    ∀ f ∈ fieldnames, ∀ c ∈ f, badCsvChar c = false := by decide

theorem random_string_mem (k : Nat) (r : Nat → Nat) (c : Char)
    (hc : c ∈ random_string k r) : c ∈ alnum_pool := by
  rcases choices_mem alnum_pool k r c hc with h | h
  · exact h
  · rw [h]; decide

theorem pyTitleGo_mem (l : List Char) :
    ∀ prev c, c ∈ pyTitleGo prev l →
      ∃ c0 ∈ l, c = c0 ∨ c = c0.toUpper ∨ c = c0.toLower := by
  induction l with
  | nil => intro prev c hc; simp [pyTitleGo] at hc
  | cons a t ih =>
    intro prev c hc
    rw [pyTitleGo] at hc
    rcases List.mem_cons.mp hc with h | h
    · refine ⟨a, List.mem_cons_self a t, ?_⟩
      rw [h]
      split
      · split
        · exact Or.inr (Or.inr rfl)
        · exact Or.inr (Or.inl rfl)
      · exact Or.inl rfl
    · obtain ⟨c0, hc0, hcase⟩ := ih a.isAlpha c h
      exact ⟨c0, List.mem_cons_of_mem a hc0, hcase⟩

theorem pyTitle_clean (l : List Char) (hl : ∀ c ∈ l, c ∈ alnum_pool) :
    ∀ c ∈ pyTitle l, badCsvChar c = false := by
  intro c hc
  obtain ⟨c0, hc0, hcase⟩ := pyTitleGo_mem l false c hc
  obtain ⟨h1, h2, h3⟩ := alnum_pool_clean c0 (hl c0 hc0)
  rcases hcase with h | h | h <;> rw [h] <;> assumption

theorem name_clean (r1 r2 : Nat → Nat) :
    ∀ c ∈ pyTitle (random_string 6 r1) ++ ' ' :: pyTitle (random_string 8 r2),
      badCsvChar c = false := by
  intro c hc
  rcases List.mem_append.mp hc with h | h
  · exact pyTitle_clean _ (fun c0 hc0 => random_string_mem 6 r1 c0 hc0) c h
  · rcases List.mem_cons.mp h with h1 | h1
    · rw [h1]; decide
    · exact pyTitle_clean _ (fun c0 hc0 => random_string_mem 8 r2 c0 hc0) c h1

theorem email_clean (r : Nat → Nat) (u : Nat) :
    ∀ c ∈ random_email r u, badCsvChar c = false := by
  intro c hc
  unfold random_email at hc
  rcases List.mem_append.mp hc with h | h
  · exact (alnum_pool_clean c (random_string_mem 8 r c h)).1
  · rcases List.mem_cons.mp h with h1 | h1
    · rw [h1]; decide
    · rcases choiceL_mem_or domains [] u with h2 | h2
      · exact domains_clean _ h2 c h1
      · rw [h2] at h1; simp at h1

theorem phone_clean (u1 u2 u3 : Nat) :
    ∀ c ∈ random_phone u1 u2 u3, badCsvChar c = false := by
  intro c hc
  unfold random_phone at hc
  simp only [List.mem_append, List.mem_cons] at hc
  have hplus : ∀ x ∈ "+1-".toList, badCsvChar x = false := by decide
  rcases hc with ((h | h) | h | h) | h | h
  · exact hplus c h
  · exact string_digits_clean c (decimalStr_mem _ c h)
  · rw [h]; decide
  · exact string_digits_clean c (decimalStr_mem _ c h)
  · rw [h]; decide
  · exact string_digits_clean c (decimalStr_mem _ c h)

theorem serializeRow_clean (i : Nat) (q : RowRand) :
    ∀ f ∈ serializeRow (makeRow i q), ∀ c ∈ f, badCsvChar c = false := by
  intro f hf
  unfold serializeRow makeRow at hf
  simp only [List.mem_cons, List.not_mem_nil, or_false] at hf
  rcases hf with h | h | h | h | h | h | h | h | h | h <;> subst h <;> intro c hc
  · exact string_digits_clean c (decimalStr_mem _ c hc)
  · exact name_clean _ _ c hc
  · exact email_clean _ _ c hc
  · exact phone_clean _ _ _ c hc
  · exact string_digits_clean c (decimalStr_mem _ c hc)
  · rcases choiceL_mem_or cities [] q.cityU with h2 | h2
    · exact cities_clean _ h2 c hc
    · rw [h2] at hc; simp at hc
  · rcases choiceL_mem_or countries [] q.countryU with h2 | h2
    · exact countries_clean _ h2 c hc
    · rw [h2] at hc; simp at hc
  · rcases choiceL_mem_or departments [] q.deptU with h2 | h2
    · exact departments_clean _ h2 c hc
    · rw [h2] at hc; simp at hc
  · exact string_digits_clean c (decimalStr_mem _ c hc)
  · rcases choiceL_mem_or activeStrings [] q.activeU with h2 | h2
    · exact activeStrings_clean _ h2 c hc
    · rw [h2] at hc; simp at hc

theorem needsQuote_eq_false (f : List Char)
    (hf : ∀ c ∈ f, badCsvChar c = false) : needsQuote f = false := by
  unfold needsQuote
  rw [List.any_eq_false]
  intro c hc
  rw [hf c hc]
  exact Bool.false_ne_true

theorem encodeField_clean (f : List Char)
    (hf : ∀ c ∈ f, badCsvChar c = false) : encodeField f = f := by
  unfold encodeField
  rw [needsQuote_eq_false f hf]
  rfl

theorem csvLine_clean_eq (fields : List (List Char))
    (hf : ∀ f ∈ fields, ∀ c ∈ f, badCsvChar c = false) :
    csvLine fields = joinComma fields := by
  unfold csvLine
  congr 1
  have h1 : List.map encodeField fields = List.map id fields :=
    List.map_congr_left fun f hf2 => encodeField_clean f (hf f hf2)
  rw [h1, List.map_id]

theorem joinComma_mem (fs : List (List Char)) (c : Char) :
    c ∈ joinComma fs → c = ',' ∨ ∃ f ∈ fs, c ∈ f := by
  induction fs with
  | nil => intro h; simp [joinComma] at h
  | cons f rest ih =>
    cases rest with
    | nil =>
      intro h
      rw [joinComma] at h
      exact Or.inr ⟨f, List.mem_cons_self f [], h⟩
    | cons g fs2 =>
      intro h
      rw [joinComma] at h
      rcases List.mem_append.mp h with h1 | h1
      · exact Or.inr ⟨f, List.mem_cons_self f _, h1⟩
      · rcases List.mem_cons.mp h1 with h2 | h2
        · exact Or.inl h2
        · rcases ih h2 with h3 | ⟨f2, hf2, hc2⟩
          · exact Or.inl h3
          · exact Or.inr ⟨f2, List.mem_cons_of_mem f hf2, hc2⟩

theorem splitOnChar_ne_nil (sep : Char) (l : List Char) :
    splitOnChar sep l ≠ [] := by
  induction l with
  | nil => simp [splitOnChar]
  | cons c cs ih =>
    rw [splitOnChar]
    split
    · simp
    · split
      · simp
      · simp

theorem splitOnChar_no_sep (sep : Char) (l : List Char) (h : sep ∉ l) :
    splitOnChar sep l = [l] := by
  induction l with
  | nil => rfl
  | cons c cs ih =>
    have hcne : ¬ (c = sep) := fun he => h (he ▸ List.mem_cons_self c cs)
    have hcs : sep ∉ cs := fun hm => h (List.mem_cons_of_mem c hm)
    rw [splitOnChar, if_neg hcne, ih hcs]

theorem splitOnChar_append (sep : Char) (a b : List Char) (ha : sep ∉ a) :
    splitOnChar sep (a ++ sep :: b) = a :: splitOnChar sep b := by
  induction a with
  | nil =>
    rw [List.nil_append, splitOnChar, if_pos rfl]
  | cons c cs ih =>
    have hcne : ¬ (c = sep) := fun he => ha (he ▸ List.mem_cons_self c cs)
    have hcs : sep ∉ cs := fun hm => ha (List.mem_cons_of_mem c hm)
    rw [List.cons_append, splitOnChar, if_neg hcne, ih hcs]

theorem splitOnChar_joinComma (fs : List (List Char)) (hne : fs ≠ [])
    (hf : ∀ f ∈ fs, ',' ∉ f) :
    splitOnChar ',' (joinComma fs) = fs := by
  induction fs with
  | nil => exact absurd rfl hne
  | cons f rest ih =>
    cases rest with
    | nil =>
      rw [joinComma]
      exact splitOnChar_no_sep ',' f (hf f (List.mem_cons_self f []))
    | cons g fs2 =>
      rw [joinComma,
        splitOnChar_append ',' f (joinComma (g :: fs2)) (hf f (List.mem_cons_self f _)),
        ih (by simp) (fun f2 hf2 => hf f2 (List.mem_cons_of_mem f hf2))]

theorem stripCR_append (l : List Char) : stripCR (l ++ ['\r']) = l := by
  unfold stripCR
  rw [List.getLast?_concat, if_pos rfl, List.dropLast_concat]

theorem split_terminated_lines (lines : List (List Char))
    (h : ∀ ln ∈ lines, '\n' ∉ ln) :
    splitOnChar '\n' ((lines.map fun l => l ++ ['\r', '\n']).flatten) =
      (lines.map fun l => l ++ ['\r']) ++ [[]] := by
  induction lines with
  | nil => rfl
  | cons l rest ih =>
    have hl : '\n' ∉ l ++ ['\r'] := by
      intro hm
      rcases List.mem_append.mp hm with h1 | h1
      · exact h l (List.mem_cons_self l rest) h1
      · simp at h1
    have hshape : (((l :: rest).map fun x => x ++ ['\r', '\n']).flatten) =
        (l ++ ['\r']) ++ '\n' :: ((rest.map fun x => x ++ ['\r', '\n']).flatten) := by
      simp
    rw [hshape, splitOnChar_append '\n' _ _ hl,
      ih (fun ln hln => h ln (List.mem_cons_of_mem l hln))]
    rfl

theorem fileLines_terminated (lines : List (List Char))
    (h : ∀ ln ∈ lines, '\n' ∉ ln) :
    fileLines ((lines.map fun l => l ++ ['\r', '\n']).flatten) =
      lines.map fun l => l ++ ['\r'] := by
  unfold fileLines
  rw [split_terminated_lines lines h]
  simp

theorem comma_not_mem_of_clean (f : List Char)
    (hf : ∀ c ∈ f, badCsvChar c = false) : ',' ∉ f := by
  intro hm
  have := hf ',' hm
  exact absurd this (by decide)

theorem newline_not_mem_csvLine (fields : List (List Char))
    (hf : ∀ f ∈ fields, ∀ c ∈ f, badCsvChar c = false) :
    '\n' ∉ csvLine fields := by
  rw [csvLine_clean_eq fields hf]
  intro hm
  rcases joinComma_mem fields '\n' hm with h | ⟨f, hfm, hc⟩
  · exact absurd h (by decide)
  · exact absurd (hf f hfm '\n' hc) (by decide)

theorem parse_round (fields : List (List Char)) (hne : fields ≠ [])
    (hf : ∀ f ∈ fields, ∀ c ∈ f, badCsvChar c = false) :
    parseCSVLine (csvLine fields ++ ['\r']) = fields := by
  unfold parseCSVLine
  rw [stripCR_append, csvLine_clean_eq fields hf,
    splitOnChar_joinComma fields hne (fun f hfm => comma_not_mem_of_clean f (hf f hfm))]

theorem csv_lines_eq (q : Nat → RowRand) :
    fileLines (large_csv q) =
      (csvLine fieldnames ++ ['\r']) ::
        (List.range 10000).map
          (fun j => csvLine (serializeRow (makeRow (j + 1) (q j))) ++ ['\r']) := by
  unfold large_csv csvFile
  rw [fileLines_terminated]
  · unfold csvFileLines csvRows
    rw [List.map_cons, List.map_map, List.map_map]
    rfl
  · intro ln hln
    unfold csvFileLines at hln
    rcases List.mem_cons.mp hln with h | h
    · rw [h]
      exact newline_not_mem_csvLine fieldnames fieldnames_clean
    · obtain ⟨row, hrow, rfl⟩ := List.mem_map.mp h
      unfold csvRows at hrow
      obtain ⟨j, _, rfl⟩ := List.mem_map.mp hrow
      exact newline_not_mem_csvLine _ (serializeRow_clean (j + 1) (q j))

theorem csv_lines_length (q : Nat → RowRand) :
    (fileLines (large_csv q)).length = 10001 := by
  rw [csv_lines_eq q]
  simp

theorem csv_field_counts_mem (q : Nat → RowRand) :
    ∀ ln ∈ (fileLines (large_csv q)).tail, (parseCSVLine ln).length = 10 := by
  rw [csv_lines_eq q, List.tail_cons]
  intro ln hln
  obtain ⟨j, _, rfl⟩ := List.mem_map.mp hln
  rw [parse_round _ (by simp [serializeRow]) (serializeRow_clean (j + 1) (q j))]
  rfl

theorem csv_field_counts (q : Nat → RowRand) :
    (fileLines (large_csv q)).tail.map (fun ln => (parseCSVLine ln).length) =
      List.replicate 10000 10 := by
  refine List.eq_replicate_iff.mpr ⟨?_, ?_⟩
  · rw [List.length_map]
    have h := csv_lines_length q
    have h2 : (fileLines (large_csv q)).tail.length =
        (fileLines (large_csv q)).length - 1 := by
      rw [List.length_tail]
    omega
  · intro b hb
    obtain ⟨ln, hln, rfl⟩ := List.mem_map.mp hb
    exact csv_field_counts_mem q ln hln

theorem csv_ids (q : Nat → RowRand) :
    (fileLines (large_csv q)).tail.map (fun ln => (parseCSVLine ln).headD []) =
      (List.range' 1 10000).map decimalStr := by
  rw [csv_lines_eq q, List.tail_cons, List.map_map, List.range'_eq_map_range,
    List.map_map]
  apply List.map_congr_left
  intro j hj
  show (parseCSVLine (csvLine (serializeRow (makeRow (j + 1) (q j))) ++ ['\r'])).headD [] =
    decimalStr (1 + j)
  rw [parse_round _ (by simp [serializeRow]) (serializeRow_clean (j + 1) (q j))]
  show decimalStr (j + 1) = decimalStr (1 + j)
  rw [Nat.add_comm]

/-! ## Claim theorems: the CSV and JSON generators -/

/-- C3: the CSV output has exactly 10001 lines (one header plus 10000
records), every data line parses into exactly 10 comma-delimited fields, and
the id column, read in order, is exactly the contiguous decimal sequence
1..10000. -/
theorem csv_shape_and_ids (q : Nat → RowRand) :
    (fileLines (large_csv q)).length = 10001 ∧
    List.Forall (fun ln => (parseCSVLine ln).length = 10)
      (fileLines (large_csv q)).tail ∧
    (fileLines (large_csv q)).tail.map (fun ln => (parseCSVLine ln).headD []) =
      (List.range' 1 10000).map decimalStr := by
  refine ⟨csv_lines_length q, ?_, csv_ids q⟩
  rw [List.forall_iff_forall_mem]
  exact csv_field_counts_mem q

/-- C6: in every generated CSV record the age is an integer in [22, 65], the
salary is an integer in [30000, 150000], and the active field is exactly the
string true or the string false. -/
theorem age_salary_active_ranges (i : Nat) (q : RowRand) :
    22 ≤ (makeRow i q).age ∧ (makeRow i q).age ≤ 65 ∧
    30000 ≤ (makeRow i q).salary ∧ (makeRow i q).salary ≤ 150000 ∧
    ((makeRow i q).active = "true".toList ∨
      (makeRow i q).active = "false".toList) := by
  simp only [makeRow]
  refine ⟨?_, ?_, ?_, ?_, ?_⟩
  · unfold randint; omega
  · unfold randint; omega
  · unfold randint; omega
  · unfold randint; omega
  · rcases Nat.mod_two_eq_zero_or_one q.activeU with h | h
    · left; simp [choiceL, activeStrings, h]
    · right; simp [choiceL, activeStrings, h]

/-- C4: the JSON data is an array of exactly 1000 objects, and the object at
every index i below 1000 has method GET, request URI `/bulk/` followed by the
decimal form of i, a headers mapping with the single key X bound to the
decimal form of i, and content equal to the decimal form of i. -/
theorem json_array_fields :
    jsonData.length = 1000 ∧
    ∀ i, i < 1000 →
      jsonData.getD i ⟨"", "", [], ""⟩ =
        ⟨"GET", "/bulk/" ++ decimalS i, [("X", decimalS i)], decimalS i⟩ := by
  constructor
  · simp [jsonData]
  · intro i hi
    unfold jsonData
    rw [List.getD_eq_getElem?_getD, List.getElem?_map, List.getElem?_range hi]
    rfl

/-- Witness for C4: at index 0 the record is GET `/bulk/0` with headers
X bound to 0 and content 0. -/
theorem json_array_fields_witness :
    0 < 1000 ∧
    jsonData.getD 0 ⟨"", "", [], ""⟩ = ⟨"GET", "/bulk/0", [("X", "0")], "0"⟩ := by
  refine ⟨by decide, ?_⟩
  have h := json_array_fields.2 0 (by decide)
  rw [h]
  rfl

/-- C8: the structural shape of every generator output is independent of the
random draws: the text file has the same total byte count under any two
oracles, the CSV has the same line count and the same per-line field counts
under any two oracles, and the JSON array is a constant of length 1000. -/
theorem shape_independent_of_randomness :
    (∀ (m : Nat) (cr1 lr1 cr2 lr2 : Nat → Nat),
        totalBytes (generate_large_file m cr1 lr1) =
          totalBytes (generate_large_file m cr2 lr2)) ∧
    (∀ q1 q2 : Nat → RowRand,
        (fileLines (large_csv q1)).length = (fileLines (large_csv q2)).length) ∧
    (∀ q1 q2 : Nat → RowRand,
        (fileLines (large_csv q1)).tail.map (fun ln => (parseCSVLine ln).length) =
          (fileLines (large_csv q2)).tail.map (fun ln => (parseCSVLine ln).length)) ∧
    jsonData.length = 1000 := by
  refine ⟨?_, ?_, ?_, by simp [jsonData]⟩
  · intro m cr1 lr1 cr2 lr2
    unfold generate_large_file
    rw [totalBytes_generate_bytes _ cr1 lr1 (by omega),
      totalBytes_generate_bytes _ cr2 lr2 (by omega)]
  · intro q1 q2
    rw [csv_lines_length q1, csv_lines_length q2]
  · intro q1 q2
    rw [csv_field_counts q1, csv_field_counts q2]

/-! ## Helper lemmas: Python title casing -/

theorem pyTitleGo_length (l : List Char) :
    ∀ prev, (pyTitleGo prev l).length = l.length := by
  induction l with
  | nil => intro prev; rfl
  | cons a t ih =>
    intro prev
    rw [pyTitleGo, List.length_cons, List.length_cons, ih a.isAlpha]

theorem alnum_case_facts :
    ∀ c ∈ alnum_pool,
      c.toUpper.isAlpha = c.isAlpha ∧ c.toLower.isAlpha = c.isAlpha ∧
      (c.isAlpha = true → c.toUpper.isUpper = true) ∧
      (c.isAlpha = true → c.toLower.isLower = true) ∧
      c.toUpper ∈ alnum_pool ∧ c.toLower ∈ alnum_pool := by decide

theorem titleCaseOk_pyTitleGo (l : List Char) :
    ∀ prev, (∀ c ∈ l, c ∈ alnum_pool) →
      titleCaseOk prev (pyTitleGo prev l) = true := by
  induction l with
  | nil => intro prev _; rfl
  | cons a t ih =>
    intro prev h
    have ha := alnum_case_facts a (h a (List.mem_cons_self a t))
    have ht : ∀ c ∈ t, c ∈ alnum_pool := fun c hc => h c (List.mem_cons_of_mem a hc)
    rw [pyTitleGo, titleCaseOk]
    cases hA : a.isAlpha with
    | false =>
      simp only [hA, Bool.false_eq_true, if_false]
      rw [Bool.not_false, Bool.true_or, Bool.true_and]
      exact ih false ht
    | true =>
      simp only [hA, if_true]
      cases prev with
      | true =>
        rw [if_pos rfl]
        have h1 : a.toLower.isAlpha = true := ha.2.1.trans hA
        have h2 : a.toLower.isLower = true := ha.2.2.2.1 hA
        rw [h1, h2, if_pos rfl]
        simp only [Bool.or_true, Bool.true_and]
        exact ih true ht
      | false =>
        rw [if_neg (by simp)]
        have h1 : a.toUpper.isAlpha = true := ha.1.trans hA
        have h2 : a.toUpper.isUpper = true := ha.2.2.1 hA
        rw [h1, h2, if_neg (by simp)]
        simp only [Bool.or_true, Bool.true_and]
        exact ih true ht

theorem titleCaseOk_append_space (b : List Char) (hb : titleCaseOk false b = true) :
    ∀ (a : List Char) prev, titleCaseOk prev a = true →
      titleCaseOk prev (a ++ ' ' :: b) = true := by
  intro a
  induction a with
  | nil =>
    intro prev _
    rw [List.nil_append, titleCaseOk]
    have : (' ').isAlpha = false := by decide
    rw [this, Bool.not_false, Bool.true_or, Bool.true_and]
    exact hb
  | cons c cs ih =>
    intro prev ha
    rw [titleCaseOk] at ha
    obtain ⟨h1, h2⟩ := Bool.and_eq_true_iff.mp ha
    rw [List.cons_append, titleCaseOk, h1, Bool.true_and]
    exact ih c.isAlpha h2

theorem pyTitle_mem_alnum (l : List Char) (hl : ∀ c ∈ l, c ∈ alnum_pool) :
    ∀ c ∈ pyTitle l, c ∈ alnum_pool := by
  intro c hc
  obtain ⟨c0, hc0, hcase⟩ := pyTitleGo_mem l false c hc
  have hfacts := alnum_case_facts c0 (hl c0 hc0)
  rcases hcase with h | h | h
  · exact h ▸ hl c0 hc0
  · exact h ▸ hfacts.2.2.2.2.1
  · exact h ▸ hfacts.2.2.2.2.2

/-- C5 counterexample: with a concrete random draw whose first word is
`a1baaa`, Python title casing upper-cases the `b` after the digit, so the
name field differs from the first-upper-rest-lower reading of the spec. -/
theorem name_not_spec_titlecase :
    (makeRow 1 badNameRand).name ≠
      spec_title (random_string 6 badNameRand.name1) ++
        ' ' :: spec_title (random_string 8 badNameRand.name2) := by
  decide

/-- C5 amended: the name field consists of two independently generated random
alphanumeric strings of lengths 6 and 8 joined by a space, each case-folded
with the semantics of Python str.title(): every alphabetic character at a
word start (start of string or preceded by a non-alphabetic character, digits
included) is upper-cased, every alphabetic character preceded by an
alphabetic character is lower-cased, and digits pass through unchanged while
acting as word boundaries. -/
theorem name_python_titlecase (i : Nat) (q : RowRand) :
    (makeRow i q).name =
      pyTitle (random_string 6 q.name1) ++ ' ' :: pyTitle (random_string 8 q.name2) ∧
    (makeRow i q).name.length = 15 ∧
    titleCaseOk false (makeRow i q).name = true ∧
    List.Forall (fun c => c ∈ alnum_pool ∨ c = ' ') (makeRow i q).name := by
  have hname : (makeRow i q).name =
      pyTitle (random_string 6 q.name1) ++ ' ' :: pyTitle (random_string 8 q.name2) := rfl
  refine ⟨hname, ?_, ?_, ?_⟩
  · rw [hname, List.length_append, List.length_cons]
    unfold pyTitle random_string
    rw [pyTitleGo_length, pyTitleGo_length, length_choices, length_choices]
  · rw [hname]
    exact titleCaseOk_append_space _
      (titleCaseOk_pyTitleGo _ false (fun c hc => random_string_mem 8 q.name2 c hc))
      _ false
      (titleCaseOk_pyTitleGo _ false (fun c hc => random_string_mem 6 q.name1 c hc))
  · rw [List.forall_iff_forall_mem]
    intro c hc
    rw [hname] at hc
    rcases List.mem_append.mp hc with h | h
    · exact Or.inl (pyTitle_mem_alnum _ (fun c0 hc0 => random_string_mem 6 q.name1 c0 hc0) c h)
    · rcases List.mem_cons.mp h with h1 | h1
      · exact Or.inr h1
      · exact Or.inl (pyTitle_mem_alnum _ (fun c0 hc0 => random_string_mem 8 q.name2 c0 hc0) c h1)
